import Mathlib

/-!
Verification of the semantic gap-filling matcher of VoiceOfTheAncients
(backend/translations/utils/analysis.py, shipped compiled as
src/unnamed/part_000).

The module loads English and Ojibwe vocabularies, prioritizes untranslated
English words by frequency, embeds definitions with a transformer encoder in
chunks, scores cosine similarity of each source definition against every
Ojibwe definition, accepts every pair at or above a threshold, persists the
processed-word set after each batch, and exports an indexed match snapshot.

The embedding encoder itself (DistilBERT) is external machine learning and is
abstracted as a per-text encoding function; similarity scores flow through the
control logic as exact rationals (floats are rationals, and the control flow
only compares, sorts and stores them).
-/

namespace VOTA

/-- A translation record as stored in MongoDB and returned by
`get_all_ojibwe_to_english`: the fields read by `print_semantic_matches`. -/
structure Translation where
  english_text : String
  ojibwe_text : String
  ojibwe_definition : String
deriving DecidableEq, Repr

/-- A match record as built inside the batch loop of `print_semantic_matches`:
the dictionary with keys `english_text`, `english_definition`, `ojibwe_text`,
`ojibwe_definition`, `similarity`. -/
structure MatchCandidate where
  english_text : String
  english_definition : String
  ojibwe_text : String
  ojibwe_definition : String
  similarity : ℚ
deriving DecidableEq, Repr

/-- Fuel-indexed chunking helper: `chunkedAux bs fuel l` splits `l` into
consecutive slices of length `bs`, spending one unit of fuel per slice. -/
def chunkedAux (bs : ℕ) : ℕ → List α → List (List α)
  | 0, _ => []
  | _ + 1, [] => []
  | fuel + 1, l => l.take bs :: chunkedAux bs fuel (l.drop bs)

/-- The slicing pattern `texts[i:i+batch_size]` for `i in
range(0, len(texts), batch_size)` used by both `batch_get_embeddings` and the
batch loop of `print_semantic_matches`: the list of consecutive slices of
length `batch_size` (the last one possibly shorter). A zero step is invalid
for `range` and yields no slices here. -/
def chunked (bs : ℕ) (l : List α) : List (List α) :=
  if bs = 0 then [] else chunkedAux bs l.length l

/-- The function `batch_get_embeddings(texts, tokenizer, model, batch_size)`: iterates over
`texts` in slices of `batch_size`, encodes each slice (tokenize with
truncation and padding, run the model, mean-pool the last hidden state — the
encoder is abstracted as the per-text function `encode`), appends each slice's
block of vectors, and finally stacks the blocks with `np.vstack(embeddings)`.
When the slice loop never ran — an empty `texts` — the block list is empty
and `np.vstack` raises a ValueError instead of returning an array; that error
path is `none`. -/
def batch_get_embeddings (encode : String → α) (texts : List String)
    (batch_size : ℕ) : Option (List α) :=
  if chunked batch_size texts = [] then none
  else some ((chunked batch_size texts).map (fun chunk => chunk.map encode)).flatten

/-- The lookup `WORD_FREQUENCIES.get(word, 0)`: frequency lookup with default 0 for
absent words. -/
def wordFrequency (freqs : List (String × ℚ)) (w : String) : ℚ :=
  (freqs.lookup w).getD 0

/-- The frequency prioritization of `print_semantic_matches`: pair each
untranslated word with its frequency (default 0), drop words whose frequency
is below `min_frequency`, and sort descending by frequency
(`sort(key=lambda x: x[1], reverse=True)`). -/
def prioritize (freqs : List (String × ℚ)) (min_frequency : ℚ)
    (candidates : List String) : List (String × ℚ) :=
  ((candidates.map (fun w => (w, wordFrequency freqs w))).filter
      (fun p => decide (min_frequency ≤ p.2))).mergeSort
    (fun a b => decide (b.2 ≤ a.2))

/-- Modelled from the spec: the inner scoring loop of `print_semantic_matches`
for one source word. Every Ojibwe entry is compared against the source
definition and accepted exactly when the similarity meets or exceeds the
threshold; the similarity function (encoder plus cosine) is abstracted as
`sim`. The acceptance comparison's boundary (≥, equality accepted) follows
spec §4.2/§8; the compiled module's comparison operator byte is not
recoverable. -/
def scoreWord (sim : String → String → ℚ) (threshold : ℚ) (word wdef : String)
    (ojibwe : List Translation) : List MatchCandidate :=
  (ojibwe.filter (fun t => decide (threshold ≤ sim wdef t.ojibwe_definition))).map
    (fun t => ⟨word, wdef, t.ojibwe_text, t.ojibwe_definition,
      sim wdef t.ojibwe_definition⟩)

/-- The product `np.dot(eng_embed, ojibwe_embed)`: the dot product of two embedding
vectors of the encoder's fixed dimension (components modelled as exact
rationals, the values floats take). -/
def dot {n : ℕ} (s t : Fin n → ℚ) : ℚ := ∑ i, s i * t i

/-- The square of `np.linalg.norm`: the sum of squared components. -/
def normSq {n : ℕ} (s : Fin n → ℚ) : ℚ := ∑ i, s i ^ 2

/-- Modelled from the spec: the pairwise cosine similarity
`np.dot(s, t) / (np.linalg.norm(s) * np.linalg.norm(t))` computed inside the
batch loop of `print_semantic_matches`, with the zero-norm case defined as 0
per spec §4.2 (no division by zero); the compiled module's guard branch is
not recoverable from the corrupted bytecode. -/
noncomputable def cosineSim {n : ℕ} (s t : Fin n → ℚ) : ℝ :=
  if normSq s = 0 ∨ normSq t = 0 then 0
  else (dot s t : ℝ) / (Real.sqrt (normSq s) * Real.sqrt (normSq t))

/-- The gate `countdown_prompt(total_processed, delay)` abstracted per spec §9: the
keypress arriving during the countdown is a cooperative cancellation signal;
the function returns `true` to continue with the next batch and `false` when
interrupted. -/
def countdown_prompt (interrupted : Bool) : Bool := !interrupted

/-- The in-memory state the batch loop persists at each per-batch finalize:
the processed-word set (`save_processed_words`) and the accumulated match
records (`all_matches`, MongoDB upserts per match). -/
structure RunState where
  processed : Finset String
  all_matches : List MatchCandidate
deriving DecidableEq

/-- One batch of the loop: score every (word, definition) pair of the batch
against all Ojibwe entries and collect the accepted matches
(`batch_matches`). -/
def processBatch (sim : String → String → ℚ) (threshold : ℚ)
    (ojibwe : List Translation) (batch : List (String × String)) :
    List MatchCandidate :=
  batch.flatMap (fun p => scoreWord sim threshold p.1 p.2 ojibwe)

/-- The batch loop of `print_semantic_matches`: process one batch, extend the
processed set with every batch word regardless of match outcome, append the
batch's matches, persist (the returned state after each iteration is exactly
the persisted state), then consult the countdown gate before the next batch.
Returns the final state and `true` when the loop exhausted the batches,
`false` when the operator interrupted it. -/
def runBatches (sim : String → String → ℚ) (threshold : ℚ)
    (ojibwe : List Translation) (cancel : ℕ → Bool) :
    List (List (String × String)) → ℕ → RunState → RunState × Bool
  | [], _, st => (st, true)
  | b :: rest, i, st =>
    let st2 : RunState :=
      ⟨st.processed ∪ (b.map Prod.fst).toFinset,
        st.all_matches ++ processBatch sim threshold ojibwe b⟩
    if countdown_prompt (cancel i) then
      runBatches sim threshold ojibwe cancel rest (i + 1) st2
    else (st2, false)

/-- The set `translated_english`: the lowercased English sides of all Ojibwe-to-English
records in MongoDB. -/
def translatedEnglish (trans : List Translation) : List String :=
  trans.map (fun t => t.english_text.toLower)

/-- The list `untranslated_words`: English words whose lowercase form has no Ojibwe
translation yet. -/
def untranslatedWords (englishWords : List String) (trans : List Translation) :
    List String :=
  englishWords.filter (fun w => !((translatedEnglish trans).contains w.toLower))

/-- The list `remaining_words`: the prioritized candidates not already in the
processed-words set (spec §4.5 step 1). -/
def remainingWords (freqs : List (String × ℚ)) (min_frequency : ℚ)
    (processed : Finset String) (untrans : List String) : List (String × ℚ) :=
  (prioritize freqs min_frequency untrans).filter
    (fun p => decide (p.1 ∉ processed))

/-- Definition resolution for a batch word: the dictionary's definition, or
the placeholder used when it is absent. -/
def resolveDefinition (english_dict : List (String × String)) (w : String) :
    String :=
  (english_dict.lookup w).getD (w ++ " (definition unavailable)")

/-- The candidate list the run iterates over, with definitions resolved. -/
def batchEntries (english_dict : List (String × String))
    (rem : List (String × ℚ)) : List (String × String) :=
  rem.map (fun p => (p.1, resolveDefinition english_dict p.1))

/-- The driver `print_semantic_matches(threshold, batch_size, min_frequency)`: load the
English dictionary and the Ojibwe translations, compute the untranslated
words, load the processed set, prioritize by frequency, then run the batch
loop over slices of `batch_size`. The similarity function (encoder plus
cosine) is abstracted as `sim`; vocabularies, frequencies, the prior
processed set and the cancellation schedule are explicit inputs. -/
def print_semantic_matches (sim : String → String → ℚ) (threshold : ℚ)
    (batch_size : ℕ) (min_frequency : ℚ)
    (english_dict : List (String × String)) (trans : List Translation)
    (freqs : List (String × ℚ)) (processed0 : Finset String)
    (cancel : ℕ → Bool) : RunState × Bool :=
  runBatches sim threshold trans cancel
    (chunked batch_size (batchEntries english_dict
      (remainingWords freqs min_frequency processed0
        (untranslatedWords (english_dict.map Prod.fst) trans)))) 0
    ⟨processed0, []⟩

/-- The deduplication key of a match: the (source word, target word) pair. -/
def matchKey (m : MatchCandidate) : String × String :=
  (m.english_text, m.ojibwe_text)

/-- Modelled from the spec: the Match Store append performed per accepted
match (`update_or_create_english_to_ojibwe` and its counterpart live in
`translations.models`, which is not among the sources): an upsert keyed by
the (source_text, target_text) pair — an existing record with the same key is
updated in place, otherwise the match is appended. -/
def storeAppend (store : List MatchCandidate) (m : MatchCandidate) :
    List MatchCandidate :=
  if store.any (fun x => decide (matchKey x = matchKey m)) then
    store.map (fun x => if matchKey x = matchKey m then m else x)
  else store ++ [m]

/-- Appending a whole batch of candidates to the Match Store, in order. -/
def storeAppendAll (store : List MatchCandidate) (ms : List MatchCandidate) :
    List MatchCandidate :=
  ms.foldl storeAppend store

/-- Modelled from the spec (§4.6): the snapshot written to
`semantic_matches.json` — all stored matches sorted descending by similarity,
each paired with the 0-based index assigned by `enumerate` at export time.
The compiled module's sort-before-enumerate step is not directly recoverable
from the corrupted bytecode. -/
def exportSnapshot (ms : List MatchCandidate) : List (ℕ × MatchCandidate) :=
  (ms.mergeSort (fun a b => decide (b.similarity ≤ a.similarity))).enum

/-- The `json.dump` serialization of `list(processed_words)`: a JSON array of
strings. -/
def serializeProcessed (ws : List String) : String :=
  "[" ++ String.intercalate ", " (ws.map (fun w => "\"" ++ w ++ "\"")) ++ "]"

/-- The observable file contents during
`save_processed_words(processed_words, processed_path)`: the function opens
the path in write mode — truncating the file in place — and `json.dump`s the
word list into it; no temporary file or atomic rename appears in the compiled
module. The three observable states are: before the call, after the
truncating open, after the dump completes. -/
def save_processed_words_states (old : String) (ws : List String) :
    List String :=
  [old, "", serializeProcessed ws]

theorem chunkedAux_flatten (bs : ℕ) (hbs : 0 < bs) :
    ∀ (fuel : ℕ) (l : List α), l.length ≤ fuel →
      (chunkedAux bs fuel l).flatten = l := by
  intro fuel
  induction fuel with
  | zero =>
    intro l hl
    have : l = [] := List.eq_nil_of_length_eq_zero (Nat.le_zero.mp hl)
    subst this
    rfl
  | succ n ih =>
    intro l hl
    cases l with
    | nil => rfl
    | cons a t =>
      have hdrop : ((a :: t).drop bs).length ≤ n := by
        have hlen : ((a :: t).drop bs).length = (a :: t).length - bs := by
          simp [List.length_drop]
        have hpos : 1 ≤ bs := hbs
        have : (a :: t).length - bs ≤ (a :: t).length - 1 :=
          Nat.sub_le_sub_left hpos _
        omega
      calc ((a :: t).take bs :: chunkedAux bs n ((a :: t).drop bs)).flatten
          = (a :: t).take bs ++ (chunkedAux bs n ((a :: t).drop bs)).flatten := by
            simp [List.flatten]
        _ = (a :: t).take bs ++ (a :: t).drop bs := by rw [ih _ hdrop]
        _ = a :: t := List.take_append_drop _ _

/-- Joining the slices recovers the original list. -/
theorem chunked_flatten (bs : ℕ) (hbs : 0 < bs) (l : List α) :
    (chunked bs l).flatten = l := by
  unfold chunked
  rw [if_neg (Nat.pos_iff_ne_zero.mp hbs)]
  exact chunkedAux_flatten bs hbs l.length l le_rfl

theorem chunked_map (bs : ℕ) (f : α → β) :
    ∀ (fuel : ℕ) (l : List α),
      (chunkedAux bs fuel l).map (List.map f) = chunkedAux bs fuel (l.map f) := by
  intro fuel
  induction fuel with
  | zero => intro l; rfl
  | succ n ih =>
    intro l
    cases l with
    | nil => rfl
    | cons a t =>
      simp only [chunkedAux, List.map_cons, List.map_take, List.map_drop]
      rw [ih]
      simp [List.map_drop]

theorem chunked_nil (bs : ℕ) : chunked bs ([] : List α) = [] := by
  unfold chunked
  by_cases h : bs = 0
  · rw [if_pos h]
  · rw [if_neg h]
    rfl

theorem chunked_ne_nil (bs : ℕ) (hbs : 0 < bs) (l : List α) (hl : l ≠ []) :
    chunked bs l ≠ [] := by
  unfold chunked
  rw [if_neg (Nat.pos_iff_ne_zero.mp hbs)]
  cases l with
  | nil => exact absurd rfl hl
  | cons a t =>
    rw [show (a :: t).length = t.length + 1 from rfl]
    simp [chunkedAux]

/-- C9 counterexample: on the empty input sequence the slice loop of
`batch_get_embeddings` never runs, so `np.vstack` is applied to an empty list
and raises a ValueError — the program produces no output sequence at all,
where the claim promises an (empty) sequence of vectors. -/
theorem batch_get_embeddings_empty_input_error :
    batch_get_embeddings String.length ([] : List String) 2 = none ∧
    batch_get_embeddings String.length ([] : List String) 2 ≠
      some (([] : List String).map String.length) := by
  refine ⟨rfl, ?_⟩
  intro h
  exact Option.noConfusion h

/-- C9 amended: for every non-empty input sequence of texts, `embed` returns
exactly one vector per input text, in input order — the internal partition
into chunks of `batch_size` changes neither the number nor the order of the
output vectors; on the empty input sequence the final `np.vstack` raises
instead of returning an empty sequence. -/
theorem batch_get_embeddings_one_vector_per_text (encode : String → α)
    (texts : List String) (batch_size : ℕ) (hbs : 0 < batch_size)
    (hne : texts ≠ []) :
    batch_get_embeddings encode texts batch_size = some (texts.map encode) ∧
    (texts.map encode).length = texts.length ∧
    batch_get_embeddings encode ([] : List String) batch_size = none := by
  refine ⟨?_, List.length_map _ _, ?_⟩
  · unfold batch_get_embeddings
    rw [if_neg (chunked_ne_nil batch_size hbs texts hne)]
    have key : ((chunked batch_size texts).map
        (fun chunk => chunk.map encode)).flatten = texts.map encode := by
      unfold chunked
      rw [if_neg (Nat.pos_iff_ne_zero.mp hbs)]
      rw [chunked_map]
      have hlen : (texts.map encode).length = texts.length :=
        List.length_map _ _
      calc (chunkedAux batch_size texts.length (texts.map encode)).flatten
          = (chunkedAux batch_size (texts.map encode).length
              (texts.map encode)).flatten := by
            rw [hlen]
        _ = texts.map encode := chunkedAux_flatten batch_size hbs _ _ le_rfl
    rw [key]
  · unfold batch_get_embeddings
    rw [chunked_nil]
    rfl

/-- Witness for C9 at a concrete input: three texts, chunk size two. -/
theorem batch_get_embeddings_one_vector_per_text_witness :
    batch_get_embeddings String.length ["ab", "c", "def"] 2 =
      some (["ab", "c", "def"].map String.length) ∧
    (["ab", "c", "def"].map String.length).length = 3 ∧
    batch_get_embeddings String.length ([] : List String) 2 = none :=
  batch_get_embeddings_one_vector_per_text String.length ["ab", "c", "def"] 2
    (by decide) (by simp)

theorem prioritize_mem (freqs : List (String × ℚ)) (min_frequency : ℚ)
    (candidates : List String) (p : String × ℚ) :
    p ∈ prioritize freqs min_frequency candidates ↔
      p.1 ∈ candidates ∧ p.2 = wordFrequency freqs p.1 ∧ min_frequency ≤ p.2 := by
  unfold prioritize
  rw [(List.mergeSort_perm _ _).mem_iff]
  simp only [List.mem_filter, List.mem_map, decide_eq_true_eq]
  constructor
  · rintro ⟨⟨w, hw, rfl⟩, hge⟩
    exact ⟨hw, rfl, hge⟩
  · rintro ⟨hmem, hfreq, hge⟩
    refine ⟨⟨p.1, hmem, ?_⟩, hge⟩
    rw [← hfreq]

/-- C10: the prioritized candidate sequence pairs each word with its looked-up
frequency (default 0 for absent words), keeps only candidates at or above
`min_frequency`, and is non-increasing in frequency: every earlier entry's
frequency is at least every later entry's (in particular every adjacent
pair's). -/
theorem prioritize_monotone (freqs : List (String × ℚ)) (min_frequency : ℚ)
    (candidates : List String) :
    List.Pairwise (fun a b : String × ℚ => b.2 ≤ a.2)
      (prioritize freqs min_frequency candidates) ∧
    ∀ p ∈ prioritize freqs min_frequency candidates,
      p.2 = wordFrequency freqs p.1 ∧ min_frequency ≤ p.2 := by
  constructor
  · have htr : ∀ a b c : String × ℚ, decide (b.2 ≤ a.2) = true →
        decide (c.2 ≤ b.2) = true → decide (c.2 ≤ a.2) = true := by
      intro a b c hab hbc
      simp only [decide_eq_true_eq] at hab hbc ⊢
      exact le_trans hbc hab
    have hto : ∀ a b : String × ℚ,
        (decide (b.2 ≤ a.2) || decide (a.2 ≤ b.2)) = true := by
      intro a b
      simp only [Bool.or_eq_true, decide_eq_true_eq]
      exact le_total b.2 a.2
    have hsorted := List.sorted_mergeSort htr hto
      ((candidates.map (fun w => (w, wordFrequency freqs w))).filter
        (fun p => decide (min_frequency ≤ p.2)))
    exact hsorted.imp (fun h => of_decide_eq_true h)
  · intro p hp
    exact ((prioritize_mem freqs min_frequency candidates p).mp hp).2

/-- C2: for one source word the produced MatchCandidates are exactly one per
target entry whose similarity meets or exceeds the threshold: membership is
characterized by `threshold ≤ sim` (so a pair exactly at the threshold is
accepted and a pair strictly below never appears), and the number of
candidates equals the number of qualifying targets (multi-accept, not
top-1). -/
theorem scoreWord_accepts_exactly_threshold (sim : String → String → ℚ)
    (threshold : ℚ) (word wdef : String) (ojibwe : List Translation) :
    (∀ m : MatchCandidate, m ∈ scoreWord sim threshold word wdef ojibwe ↔
      ∃ t ∈ ojibwe, threshold ≤ sim wdef t.ojibwe_definition ∧
        m = ⟨word, wdef, t.ojibwe_text, t.ojibwe_definition,
          sim wdef t.ojibwe_definition⟩) ∧
    (scoreWord sim threshold word wdef ojibwe).length =
      (ojibwe.filter
        (fun t => decide (threshold ≤ sim wdef t.ojibwe_definition))).length ∧
    ∀ m ∈ scoreWord sim threshold word wdef ojibwe, threshold ≤ m.similarity := by
  refine ⟨?_, ?_, ?_⟩
  · intro m
    unfold scoreWord
    simp only [List.mem_map, List.mem_filter, decide_eq_true_eq]
    constructor
    · rintro ⟨t, ⟨ht, hge⟩, rfl⟩
      exact ⟨t, ht, hge, rfl⟩
    · rintro ⟨t, ht, hge, rfl⟩
      exact ⟨t, ⟨ht, hge⟩, rfl⟩
  · unfold scoreWord
    exact List.length_map _ _
  · intro m hm
    unfold scoreWord at hm
    simp only [List.mem_map, List.mem_filter, decide_eq_true_eq] at hm
    obtain ⟨t, ⟨_, hge⟩, rfl⟩ := hm
    exact hge

theorem normSq_nonneg {n : ℕ} (s : Fin n → ℚ) : 0 ≤ normSq s :=
  Finset.sum_nonneg (fun i _ => sq_nonneg (s i))

theorem dot_sq_le_normSq_mul_normSq {n : ℕ} (s t : Fin n → ℚ) :
    dot s t ^ 2 ≤ normSq s * normSq t :=
  Finset.sum_mul_sq_le_sq_mul_sq Finset.univ s t

/-- C1: for every scored pair of embeddings, a zero-norm vector on either
side yields similarity exactly 0 (no division by zero), and when both norms
are non-zero the cosine similarity lies in the interval from -1 to 1. -/
theorem cosineSim_zero_and_bounded {n : ℕ} (s t : Fin n → ℚ) :
    ((normSq s = 0 ∨ normSq t = 0) → cosineSim s t = 0) ∧
    (normSq s ≠ 0 → normSq t ≠ 0 →
      -1 ≤ cosineSim s t ∧ cosineSim s t ≤ 1) := by
  constructor
  · intro h
    unfold cosineSim
    rw [if_pos h]
  · intro hs ht
    have hA : (0 : ℚ) < normSq s := lt_of_le_of_ne (normSq_nonneg s) (Ne.symm hs)
    have hB : (0 : ℚ) < normSq t := lt_of_le_of_ne (normSq_nonneg t) (Ne.symm ht)
    have hAr : (0 : ℝ) < (normSq s : ℝ) := by exact_mod_cast hA
    have hBr : (0 : ℝ) < (normSq t : ℝ) := by exact_mod_cast hB
    have hcs : ((dot s t : ℚ) : ℝ) ^ 2 ≤ (normSq s : ℝ) * (normSq t : ℝ) := by
      exact_mod_cast dot_sq_le_normSq_mul_normSq s t
    have hden : 0 < Real.sqrt (normSq s) * Real.sqrt (normSq t) :=
      mul_pos (Real.sqrt_pos.mpr hAr) (Real.sqrt_pos.mpr hBr)
    have habs : |((dot s t : ℚ) : ℝ)| ≤
        Real.sqrt (normSq s) * Real.sqrt (normSq t) := by
      rw [← Real.sqrt_sq_eq_abs, ← Real.sqrt_mul hAr.le]
      exact Real.sqrt_le_sqrt hcs
    have hval : cosineSim s t =
        ((dot s t : ℚ) : ℝ) / (Real.sqrt (normSq s) * Real.sqrt (normSq t)) := by
      unfold cosineSim
      rw [if_neg (by push_neg; exact ⟨hs, ht⟩)]
    have hquot : |cosineSim s t| ≤ 1 := by
      rw [hval, abs_div, abs_of_pos hden]
      exact (div_le_one hden).mpr habs
    exact abs_le.mp hquot

/-- Witness for C1: a zero vector against a unit vector gives similarity 0,
and a unit vector against itself stays within the bounds. -/
theorem cosineSim_zero_and_bounded_witness :
    (normSq (fun _ : Fin 1 => (0 : ℚ)) = 0 ∨
      normSq (fun _ : Fin 1 => (1 : ℚ)) = 0) ∧
    cosineSim (fun _ : Fin 1 => (0 : ℚ)) (fun _ : Fin 1 => (1 : ℚ)) = 0 ∧
    normSq (fun _ : Fin 1 => (1 : ℚ)) ≠ 0 ∧
    -1 ≤ cosineSim (fun _ : Fin 1 => (1 : ℚ)) (fun _ : Fin 1 => (1 : ℚ)) ∧
    cosineSim (fun _ : Fin 1 => (1 : ℚ)) (fun _ : Fin 1 => (1 : ℚ)) ≤ 1 := by
  have h0 : normSq (fun _ : Fin 1 => (0 : ℚ)) = 0 := by simp [normSq]
  have h1 : normSq (fun _ : Fin 1 => (1 : ℚ)) ≠ 0 := by simp [normSq]
  refine ⟨Or.inl h0,
    (cosineSim_zero_and_bounded (fun _ : Fin 1 => (0 : ℚ))
      (fun _ : Fin 1 => (1 : ℚ))).1 (Or.inl h0), h1, ?_, ?_⟩
  · exact ((cosineSim_zero_and_bounded (fun _ : Fin 1 => (1 : ℚ))
      (fun _ : Fin 1 => (1 : ℚ))).2 h1 h1).1
  · exact ((cosineSim_zero_and_bounded (fun _ : Fin 1 => (1 : ℚ))
      (fun _ : Fin 1 => (1 : ℚ))).2 h1 h1).2

theorem runBatches_take_spec (sim : String → String → ℚ) (threshold : ℚ)
    (ojibwe : List Translation) (cancel : ℕ → Bool) :
    ∀ (batches : List (List (String × String))) (i : ℕ) (st : RunState),
      ∃ k ≤ batches.length,
        (runBatches sim threshold ojibwe cancel batches i st).1.processed =
          st.processed ∪ ((batches.take k).flatten.map Prod.fst).toFinset ∧
        (runBatches sim threshold ojibwe cancel batches i st).1.all_matches =
          st.all_matches ++
            (batches.take k).flatMap (processBatch sim threshold ojibwe) ∧
        ((runBatches sim threshold ojibwe cancel batches i st).2 = true →
          k = batches.length) := by
  intro batches
  induction batches with
  | nil =>
    intro i st
    refine ⟨0, Nat.le_refl 0, ?_, ?_, fun _ => rfl⟩
    · simp [runBatches]
    · simp [runBatches]
  | cons b rest ih =>
    intro i st
    by_cases hc : countdown_prompt (cancel i) = true
    · obtain ⟨k, hk, hproc, hmat, hdone⟩ := ih (i + 1)
        ⟨st.processed ∪ (b.map Prod.fst).toFinset,
          st.all_matches ++ processBatch sim threshold ojibwe b⟩
      refine ⟨k + 1, Nat.succ_le_succ hk, ?_, ?_, ?_⟩
      · rw [runBatches, if_pos hc]
        rw [hproc]
        simp only [List.take_succ_cons, List.flatten_cons, List.map_append,
          List.toFinset_append]
        exact Finset.union_assoc _ _ _
      · rw [runBatches, if_pos hc]
        rw [hmat]
        simp only [List.take_succ_cons, List.flatMap_cons, List.append_assoc]
      · intro hdone2
        rw [runBatches, if_pos hc] at hdone2
        rw [hdone hdone2]
        rfl
    · refine ⟨1, Nat.succ_le_succ (Nat.zero_le _), ?_, ?_, ?_⟩
      · rw [runBatches, if_neg hc]
        simp
      · rw [runBatches, if_neg hc]
        simp [processBatch]
      · intro hdone2
        rw [runBatches, if_neg hc] at hdone2
        exact absurd hdone2 (by simp)

theorem runBatches_no_cancel_completes (sim : String → String → ℚ)
    (threshold : ℚ) (ojibwe : List Translation) :
    ∀ (batches : List (List (String × String))) (i : ℕ) (st : RunState),
      (runBatches sim threshold ojibwe (fun _ => false) batches i st).2 =
        true := by
  intro batches
  induction batches with
  | nil => intro i st; rfl
  | cons b rest ih =>
    intro i st
    rw [runBatches]
    simp only [countdown_prompt, Bool.not_false, if_true]
    exact ih (i + 1) _

theorem flatten_take_append (L : List (List α)) (k : ℕ) :
    (L.take k).flatten ++ (L.drop k).flatten = L.flatten := by
  rw [← List.flatten_append, List.take_append_drop]

theorem mem_flatten_take (L : List (List α)) (k : ℕ) (a : α)
    (h : a ∈ (L.take k).flatten) : a ∈ L.flatten := by
  rw [← flatten_take_append L k]
  exact List.mem_append_left _ h

theorem flatMap_chunked_flatten (L : List (List α)) (f : α → List β) :
    L.flatMap (fun b => b.flatMap f) = L.flatten.flatMap f := by
  induction L with
  | nil => rfl
  | cons b rest ih =>
    rw [List.flatMap_cons, List.flatten_cons, List.flatMap_append, ih]

theorem batchEntries_map_fst (english_dict : List (String × String))
    (rem : List (String × ℚ)) :
    (batchEntries english_dict rem).map Prod.fst = rem.map Prod.fst := by
  unfold batchEntries
  rw [List.map_map]
  rfl

theorem run_processed_superset (sim : String → String → ℚ) (threshold : ℚ)
    (batch_size : ℕ) (min_frequency : ℚ)
    (english_dict : List (String × String)) (trans : List Translation)
    (freqs : List (String × ℚ)) (processed0 : Finset String)
    (cancel : ℕ → Bool) :
    processed0 ⊆ (print_semantic_matches sim threshold batch_size min_frequency
      english_dict trans freqs processed0 cancel).1.processed := by
  unfold print_semantic_matches
  obtain ⟨k, _, hproc, _, _⟩ := runBatches_take_spec sim threshold trans cancel
    (chunked batch_size (batchEntries english_dict
      (remainingWords freqs min_frequency processed0
        (untranslatedWords (english_dict.map Prod.fst) trans)))) 0
    ⟨processed0, []⟩
  rw [hproc]
  exact Finset.subset_union_left

theorem run_processed_mem (sim : String → String → ℚ) (threshold : ℚ)
    (batch_size : ℕ) (min_frequency : ℚ)
    (english_dict : List (String × String)) (trans : List Translation)
    (freqs : List (String × ℚ)) (processed0 : Finset String)
    (cancel : ℕ → Bool) (hbs : 0 < batch_size) (w : String)
    (hw : w ∈ (print_semantic_matches sim threshold batch_size min_frequency
      english_dict trans freqs processed0 cancel).1.processed) :
    w ∈ processed0 ∨
      w ∈ (remainingWords freqs min_frequency processed0
        (untranslatedWords (english_dict.map Prod.fst) trans)).map Prod.fst := by
  unfold print_semantic_matches at hw
  obtain ⟨k, _, hproc, _, _⟩ := runBatches_take_spec sim threshold trans cancel
    (chunked batch_size (batchEntries english_dict
      (remainingWords freqs min_frequency processed0
        (untranslatedWords (english_dict.map Prod.fst) trans)))) 0
    ⟨processed0, []⟩
  rw [hproc] at hw
  rcases Finset.mem_union.mp hw with h | h
  · exact Or.inl h
  · right
    rw [List.mem_toFinset] at h
    obtain ⟨p, hp, rfl⟩ := List.mem_map.mp h
    have hp2 : p ∈ (chunked batch_size (batchEntries english_dict
        (remainingWords freqs min_frequency processed0
          (untranslatedWords (english_dict.map Prod.fst) trans)))).flatten :=
      mem_flatten_take _ k p hp
    rw [chunked_flatten batch_size hbs] at hp2
    rw [← batchEntries_map_fst english_dict]
    exact List.mem_map_of_mem Prod.fst hp2

theorem run_processed_eq (sim : String → String → ℚ) (threshold : ℚ)
    (batch_size : ℕ) (min_frequency : ℚ)
    (english_dict : List (String × String)) (trans : List Translation)
    (freqs : List (String × ℚ)) (processed0 : Finset String)
    (hbs : 0 < batch_size) :
    (print_semantic_matches sim threshold batch_size min_frequency english_dict
        trans freqs processed0 (fun _ => false)).1.processed =
      processed0 ∪ ((remainingWords freqs min_frequency processed0
        (untranslatedWords (english_dict.map Prod.fst) trans)).map
          Prod.fst).toFinset := by
  unfold print_semantic_matches
  obtain ⟨k, hk, hproc, _, hdone⟩ := runBatches_take_spec sim threshold trans
    (fun _ => false)
    (chunked batch_size (batchEntries english_dict
      (remainingWords freqs min_frequency processed0
        (untranslatedWords (english_dict.map Prod.fst) trans)))) 0
    ⟨processed0, []⟩
  have hk2 : k = (chunked batch_size (batchEntries english_dict
      (remainingWords freqs min_frequency processed0
        (untranslatedWords (english_dict.map Prod.fst) trans)))).length :=
    hdone (runBatches_no_cancel_completes sim threshold trans _ 0 _)
  rw [hproc, hk2, List.take_length, chunked_flatten batch_size hbs,
    batchEntries_map_fst]

/-- C5: after the per-batch finalize steps of a completed run the processed
set equals its prior value plus exactly the attempted candidate words — every
batch word is added whether or not it matched — and a word excluded by the
`min_frequency` filter is never attempted: under any cancellation schedule it
belongs to the final processed set only if it was already there. -/
theorem finalize_adds_exactly_batch_words (sim : String → String → ℚ)
    (threshold : ℚ) (batch_size : ℕ) (min_frequency : ℚ)
    (english_dict : List (String × String)) (trans : List Translation)
    (freqs : List (String × ℚ)) (processed0 : Finset String)
    (cancel : ℕ → Bool) (hbs : 0 < batch_size) :
    ((print_semantic_matches sim threshold batch_size min_frequency
        english_dict trans freqs processed0 (fun _ => false)).1.processed =
      processed0 ∪ ((remainingWords freqs min_frequency processed0
        (untranslatedWords (english_dict.map Prod.fst) trans)).map
          Prod.fst).toFinset) ∧
    ∀ w : String, wordFrequency freqs w < min_frequency →
      (w ∈ (print_semantic_matches sim threshold batch_size min_frequency
          english_dict trans freqs processed0 cancel).1.processed ↔
        w ∈ processed0) := by
  refine ⟨run_processed_eq sim threshold batch_size min_frequency english_dict
    trans freqs processed0 hbs, ?_⟩
  intro w hwfreq
  constructor
  · intro hw
    rcases run_processed_mem sim threshold batch_size min_frequency
      english_dict trans freqs processed0 cancel hbs w hw with h | h
    · exact h
    · exfalso
      obtain ⟨p, hp, rfl⟩ := List.mem_map.mp h
      have hp2 : p ∈ prioritize freqs min_frequency
          (untranslatedWords (english_dict.map Prod.fst) trans) :=
        List.mem_of_mem_filter hp
      obtain ⟨hfreq, hge⟩ := (prioritize_monotone freqs min_frequency
        (untranslatedWords (english_dict.map Prod.fst) trans)).2 p hp2
      rw [hfreq] at hge
      exact absurd hge (not_le.mpr hwfreq)
  · intro hw
    exact run_processed_superset sim threshold batch_size min_frequency
      english_dict trans freqs processed0 cancel hw

/-- Witness for C5 at a concrete input: one word, batch size one. -/
theorem finalize_adds_exactly_batch_words_witness :
    ((print_semantic_matches (fun _ _ => (9 : ℚ) / 10) (84 / 100) 1 100
        [("dog", "a domesticated canine")]
        [⟨"cat", "gaazhagens", "a small cat"⟩] [("dog", 500)] ∅
        (fun _ => false)).1.processed =
      ∅ ∪ ((remainingWords [("dog", 500)] 100 ∅
        (untranslatedWords ([("dog", "a domesticated canine")].map Prod.fst)
          [⟨"cat", "gaazhagens", "a small cat"⟩])).map Prod.fst).toFinset) ∧
    ∀ w : String, wordFrequency [("dog", 500)] w < 100 →
      (w ∈ (print_semantic_matches (fun _ _ => (9 : ℚ) / 10) (84 / 100) 1 100
          [("dog", "a domesticated canine")]
          [⟨"cat", "gaazhagens", "a small cat"⟩] [("dog", 500)] ∅
          (fun _ => false)).1.processed ↔ w ∈ (∅ : Finset String)) :=
  finalize_adds_exactly_batch_words (fun _ _ => (9 : ℚ) / 10) (84 / 100) 1 100
    [("dog", "a domesticated canine")] [⟨"cat", "gaazhagens", "a small cat"⟩]
    [("dog", 500)] ∅ (fun _ => false) (by decide)


/-- C6: immediately re-running the Orchestrator after a completed run, with
the same vocabularies and frequencies, leaves no candidate to process: the
remaining-word list computed against the first run's processed set is empty,
and the second run returns at once with the processed set unchanged, no new
matches, and a completed status — under any cancellation schedule. -/
theorem second_run_processes_zero_candidates (sim : String → String → ℚ)
    (threshold : ℚ) (batch_size : ℕ) (min_frequency : ℚ)
    (english_dict : List (String × String)) (trans : List Translation)
    (freqs : List (String × ℚ)) (processed0 : Finset String)
    (cancel2 : ℕ → Bool) (hbs : 0 < batch_size) :
    remainingWords freqs min_frequency
      (print_semantic_matches sim threshold batch_size min_frequency
        english_dict trans freqs processed0 (fun _ => false)).1.processed
      (untranslatedWords (english_dict.map Prod.fst) trans) = [] ∧
    print_semantic_matches sim threshold batch_size min_frequency english_dict
      trans freqs
      (print_semantic_matches sim threshold batch_size min_frequency
        english_dict trans freqs processed0 (fun _ => false)).1.processed
      cancel2 =
      (⟨(print_semantic_matches sim threshold batch_size min_frequency
        english_dict trans freqs processed0 (fun _ => false)).1.processed,
        []⟩, true) := by
  have hrem : remainingWords freqs min_frequency
      (print_semantic_matches sim threshold batch_size min_frequency
        english_dict trans freqs processed0 (fun _ => false)).1.processed
      (untranslatedWords (english_dict.map Prod.fst) trans) = [] := by
    unfold remainingWords
    rw [List.filter_eq_nil_iff]
    intro p hp
    simp only [decide_eq_true_eq, Decidable.not_not]
    by_cases hP0 : p.1 ∈ processed0
    · exact run_processed_superset sim threshold batch_size min_frequency
        english_dict trans freqs processed0 (fun _ => false) hP0
    · have hp2 : p ∈ remainingWords freqs min_frequency processed0
          (untranslatedWords (english_dict.map Prod.fst) trans) := by
        unfold remainingWords
        exact List.mem_filter.mpr ⟨hp, by simp [hP0]⟩
      rw [run_processed_eq sim threshold batch_size min_frequency english_dict
        trans freqs processed0 hbs]
      apply Finset.mem_union_right
      rw [List.mem_toFinset]
      exact List.mem_map_of_mem Prod.fst hp2
  refine ⟨hrem, ?_⟩
  unfold print_semantic_matches
  unfold print_semantic_matches at hrem
  rw [hrem]
  rw [show batchEntries english_dict [] = [] from rfl, chunked_nil]
  rfl

/-- Witness for C6 at a concrete input: one word, batch size one. -/
theorem second_run_processes_zero_candidates_witness :
    remainingWords [("dog", 500)] 100
      (print_semantic_matches (fun _ _ => (9 : ℚ) / 10) (84 / 100) 1 100
        [("dog", "a domesticated canine")]
        [⟨"cat", "gaazhagens", "a small cat"⟩] [("dog", 500)] ∅
        (fun _ => false)).1.processed
      (untranslatedWords ([("dog", "a domesticated canine")].map Prod.fst)
        [⟨"cat", "gaazhagens", "a small cat"⟩]) = [] ∧
    print_semantic_matches (fun _ _ => (9 : ℚ) / 10) (84 / 100) 1 100
      [("dog", "a domesticated canine")] [⟨"cat", "gaazhagens", "a small cat"⟩]
      [("dog", 500)]
      (print_semantic_matches (fun _ _ => (9 : ℚ) / 10) (84 / 100) 1 100
        [("dog", "a domesticated canine")]
        [⟨"cat", "gaazhagens", "a small cat"⟩] [("dog", 500)] ∅
        (fun _ => false)).1.processed
      (fun _ => false) =
      (⟨(print_semantic_matches (fun _ _ => (9 : ℚ) / 10) (84 / 100) 1 100
        [("dog", "a domesticated canine")]
        [⟨"cat", "gaazhagens", "a small cat"⟩] [("dog", 500)] ∅
        (fun _ => false)).1.processed, []⟩, true) :=
  second_run_processes_zero_candidates (fun _ _ => (9 : ℚ) / 10) (84 / 100) 1
    100 [("dog", "a domesticated canine")]
    [⟨"cat", "gaazhagens", "a small cat"⟩] [("dog", 500)] ∅ (fun _ => false)
    (by decide)

/-- C8: cancellation acts only at the inter-batch gate, so after a run under
any cancellation schedule the persisted state is batch-aligned: it equals the
initial state extended by some whole number of leading batches (each batch's
words and matches added atomically), the whole list when the run completed;
interruption discards nothing — the initial processed set is contained in the
final one and the initial match list is a prefix of the final one. -/
theorem cancellation_only_at_batch_gate (sim : String → String → ℚ)
    (threshold : ℚ) (ojibwe : List Translation) (cancel : ℕ → Bool)
    (batches : List (List (String × String))) (st : RunState) :
    ∃ k ≤ batches.length,
      (runBatches sim threshold ojibwe cancel batches 0 st).1.processed =
        st.processed ∪ ((batches.take k).flatten.map Prod.fst).toFinset ∧
      (runBatches sim threshold ojibwe cancel batches 0 st).1.all_matches =
        st.all_matches ++
          (batches.take k).flatMap (processBatch sim threshold ojibwe) ∧
      ((runBatches sim threshold ojibwe cancel batches 0 st).2 = true →
        k = batches.length) ∧
      st.processed ⊆
        (runBatches sim threshold ojibwe cancel batches 0 st).1.processed ∧
      ∃ tail, (runBatches sim threshold ojibwe cancel batches 0 st).1.all_matches =
        st.all_matches ++ tail := by
  obtain ⟨k, hk, hproc, hmat, hdone⟩ :=
    runBatches_take_spec sim threshold ojibwe cancel batches 0 st
  refine ⟨k, hk, hproc, hmat, hdone, ?_, ⟨_, hmat⟩⟩
  rw [hproc]
  exact Finset.subset_union_left

/-- C7: the exported snapshot lists all stored matches sorted descending by
similarity (every earlier entry's similarity is at least every later one's),
carries the 0-based indexes 0, 1, 2, … in order — so index 0 is the highest
similarity — contains exactly the stored matches (a permutation of them), and
is total: exporting an empty store yields the empty, well-formed
collection. -/
theorem exportSnapshot_sorted_indexed_total (ms : List MatchCandidate) :
    List.Pairwise
      (fun a b : ℕ × MatchCandidate => b.2.similarity ≤ a.2.similarity)
      (exportSnapshot ms) ∧
    (exportSnapshot ms).map Prod.fst = List.range ms.length ∧
    ((exportSnapshot ms).map Prod.snd).Perm ms ∧
    exportSnapshot ([] : List MatchCandidate) = [] := by
  refine ⟨?_, ?_, ?_, by simp [exportSnapshot]⟩
  · have htr : ∀ a b c : MatchCandidate, decide (b.similarity ≤ a.similarity) =
        true → decide (c.similarity ≤ b.similarity) = true →
        decide (c.similarity ≤ a.similarity) = true := by
      intro a b c hab hbc
      simp only [decide_eq_true_eq] at hab hbc ⊢
      exact le_trans hbc hab
    have hto : ∀ a b : MatchCandidate,
        (decide (b.similarity ≤ a.similarity) ||
          decide (a.similarity ≤ b.similarity)) = true := by
      intro a b
      simp only [Bool.or_eq_true, decide_eq_true_eq]
      exact le_total b.similarity a.similarity
    have hs2 : List.Pairwise
        (fun a b : MatchCandidate => b.similarity ≤ a.similarity)
        (ms.mergeSort (fun a b => decide (b.similarity ≤ a.similarity))) :=
      (List.sorted_mergeSort htr hto ms).imp (fun h => of_decide_eq_true h)
    have hmapped : List.Pairwise
        (fun a b : MatchCandidate => b.similarity ≤ a.similarity)
        (List.map Prod.snd
          (ms.mergeSort (fun a b => decide (b.similarity ≤ a.similarity))).enum) := by
      rw [List.enum_map_snd]
      exact hs2
    exact List.pairwise_map.mp hmapped
  · unfold exportSnapshot
    rw [List.enum_map_fst, (List.mergeSort_perm ms _).length_eq]
  · unfold exportSnapshot
    rw [List.enum_map_snd]
    exact List.mergeSort_perm ms _

/-- C3 counterexample: `save_processed_words` truncates the target file in
place (`open` in write mode) before `json.dump` writes the new contents;
interrupting between the truncating open and the completed dump leaves the
empty file, which is neither the prior contents nor the new serialization —
a partially-written state, refuting the claimed atomicity. -/
theorem save_interrupted_leaves_partial_state :
    "" ∈ save_processed_words_states (serializeProcessed ["dog"])
      ["dog", "cat"] ∧
    "" ≠ serializeProcessed ["dog"] ∧
    "" ≠ serializeProcessed ["dog", "cat"] := by
  refine ⟨?_, ?_, ?_⟩
  · simp [save_processed_words_states]
  · decide
  · decide

/-- C3 amended: `save(ProcessedSet)` is a full rewrite — an uninterrupted
save leaves the file holding exactly the serialization of the in-memory set,
independent of the prior contents — but the write is a direct
truncate-then-write, not write-temp-then-replace: an interrupted save can
leave the empty truncated state, which is not the serialization of any
set. -/
theorem save_full_rewrite_not_atomic (old : String) (ws : List String) :
    (save_processed_words_states old ws).getLast? =
      some (serializeProcessed ws) ∧
    (save_processed_words_states old ws).head? = some old ∧
    "" ∈ save_processed_words_states old ws ∧
    ∀ vs : List String, serializeProcessed vs ≠ "" := by
  refine ⟨rfl, rfl, by simp [save_processed_words_states], ?_⟩
  intro vs h
  unfold serializeProcessed at h
  have hlen := congrArg String.length h
  rw [String.length_append, String.length_append] at hlen
  have h1 : ("[" : String).length = 1 := rfl
  have h2 : ("]" : String).length = 1 := rfl
  have h3 : ("" : String).length = 0 := rfl
  rw [h1, h2, h3] at hlen
  omega

theorem storeAppend_map_key (s : List MatchCandidate) (m : MatchCandidate) :
    (storeAppend s m).map matchKey =
      if matchKey m ∈ s.map matchKey then s.map matchKey
      else s.map matchKey ++ [matchKey m] := by
  unfold storeAppend
  by_cases h : matchKey m ∈ s.map matchKey
  · obtain ⟨x, hx, hkx⟩ := List.mem_map.mp h
    have hany : (s.any fun x => decide (matchKey x = matchKey m)) = true := by
      rw [List.any_eq_true]
      exact ⟨x, hx, by rw [decide_eq_true_eq]; exact hkx⟩
    rw [if_pos hany, if_pos h, List.map_map]
    apply List.map_congr_left
    intro y hy
    by_cases hy2 : matchKey y = matchKey m
    · show matchKey (if matchKey y = matchKey m then m else y) = matchKey y
      rw [if_pos hy2, hy2]
    · show matchKey (if matchKey y = matchKey m then m else y) = matchKey y
      rw [if_neg hy2]
  · have hany : (s.any fun x => decide (matchKey x = matchKey m)) = false := by
      rw [List.any_eq_false]
      intro x hx
      simp only [decide_eq_true_eq]
      intro hkx
      exact h (List.mem_map.mpr ⟨x, hx, hkx⟩)
    rw [if_neg (by rw [hany]; simp), if_neg h, List.map_append]
    rfl

theorem mem_key_storeAppend (s : List MatchCandidate) (m : MatchCandidate) :
    matchKey m ∈ (storeAppend s m).map matchKey := by
  rw [storeAppend_map_key]
  by_cases h : matchKey m ∈ s.map matchKey
  · rwa [if_pos h]
  · rw [if_neg h]
    exact List.mem_append_right _ (List.mem_singleton_self _)

theorem mem_key_storeAppend_of_mem (s : List MatchCandidate)
    (m : MatchCandidate) (k : String × String) (hk : k ∈ s.map matchKey) :
    k ∈ (storeAppend s m).map matchKey := by
  rw [storeAppend_map_key]
  by_cases h : matchKey m ∈ s.map matchKey
  · rwa [if_pos h]
  · rw [if_neg h]
    exact List.mem_append_left _ hk

theorem storeAppend_keys_nodup (s : List MatchCandidate) (m : MatchCandidate)
    (h : (s.map matchKey).Nodup) : ((storeAppend s m).map matchKey).Nodup := by
  rw [storeAppend_map_key]
  by_cases hm : matchKey m ∈ s.map matchKey
  · rwa [if_pos hm]
  · rw [if_neg hm, List.nodup_append]
    refine ⟨h, List.nodup_singleton _, ?_⟩
    intro a ha hb
    rw [List.mem_singleton] at hb
    subst hb
    exact hm ha

theorem storeAppendAll_key_mono (ms : List MatchCandidate) :
    ∀ (s : List MatchCandidate) (k : String × String), k ∈ s.map matchKey →
      k ∈ (storeAppendAll s ms).map matchKey := by
  induction ms with
  | nil =>
    intro s k hk
    exact hk
  | cons m tl ih =>
    intro s k hk
    simp only [storeAppendAll, List.foldl_cons] at ih ⊢
    exact ih (storeAppend s m) k (mem_key_storeAppend_of_mem s m k hk)

theorem mem_key_storeAppendAll (ms : List MatchCandidate) :
    ∀ (s : List MatchCandidate) (m : MatchCandidate), m ∈ ms →
      matchKey m ∈ (storeAppendAll s ms).map matchKey := by
  induction ms with
  | nil =>
    intro s m hm
    exact absurd hm (List.not_mem_nil m)
  | cons a tl ih =>
    intro s m hm
    simp only [storeAppendAll, List.foldl_cons]
    rcases List.mem_cons.mp hm with rfl | hm2
    · have := storeAppendAll_key_mono tl (storeAppend s m) (matchKey m)
        (mem_key_storeAppend s m)
      simpa only [storeAppendAll] using this
    · have := ih (storeAppend s a) m hm2
      simpa only [storeAppendAll] using this

theorem storeAppendAll_keys_nodup (ms : List MatchCandidate) :
    ∀ s : List MatchCandidate, (s.map matchKey).Nodup →
      ((storeAppendAll s ms).map matchKey).Nodup := by
  induction ms with
  | nil =>
    intro s hs
    exact hs
  | cons m tl ih =>
    intro s hs
    simp only [storeAppendAll, List.foldl_cons] at ih ⊢
    exact ih (storeAppend s m) (storeAppend_keys_nodup s m hs)

theorem storeAppendAll_keys_of_all_mem (ms : List MatchCandidate) :
    ∀ s : List MatchCandidate, (∀ m ∈ ms, matchKey m ∈ s.map matchKey) →
      (storeAppendAll s ms).map matchKey = s.map matchKey := by
  induction ms with
  | nil =>
    intro s _
    rfl
  | cons a tl ih =>
    intro s hall
    simp only [storeAppendAll, List.foldl_cons] at ih ⊢
    have hkeys : (storeAppend s a).map matchKey = s.map matchKey := by
      rw [storeAppend_map_key, if_pos (hall a (List.mem_cons_self a tl))]
    have hrest := ih (storeAppend s a) (fun m hm => by
      rw [hkeys]
      exact hall m (List.mem_cons_of_mem a hm))
    rw [hrest, hkeys]

theorem prioritize_words_nodup (freqs : List (String × ℚ))
    (min_frequency : ℚ) (cs : List String) (h : cs.Nodup) :
    ((prioritize freqs min_frequency cs).map Prod.fst).Nodup := by
  unfold prioritize
  have hperm := (List.mergeSort_perm
    ((cs.map (fun w => (w, wordFrequency freqs w))).filter
      (fun p => decide (min_frequency ≤ p.2)))
    (fun a b => decide (b.2 ≤ a.2))).map Prod.fst
  rw [hperm.nodup_iff]
  apply ((List.filter_sublist _).map Prod.fst).nodup
  rw [List.map_map]
  rw [show (Prod.fst ∘ fun w => ((w, wordFrequency freqs w) : String × ℚ)) =
    id from rfl, List.map_id]
  exact h

theorem remainingWords_words_nodup (freqs : List (String × ℚ))
    (min_frequency : ℚ) (processed : Finset String) (untrans : List String)
    (h : untrans.Nodup) :
    ((remainingWords freqs min_frequency processed untrans).map
      Prod.fst).Nodup := by
  unfold remainingWords
  exact ((List.filter_sublist _).map Prod.fst).nodup
    (prioritize_words_nodup freqs min_frequency untrans h)

theorem scoreWord_key_fst (sim : String → String → ℚ) (threshold : ℚ)
    (word wdef : String) (ojibwe : List Translation) (k : String × String)
    (hk : k ∈ (scoreWord sim threshold word wdef ojibwe).map matchKey) :
    k.1 = word := by
  obtain ⟨m, hm, rfl⟩ := List.mem_map.mp hk
  unfold scoreWord at hm
  obtain ⟨t, _, rfl⟩ := List.mem_map.mp hm
  rfl

theorem scoreWord_keys_nodup (sim : String → String → ℚ) (threshold : ℚ)
    (word wdef : String) (ojibwe : List Translation)
    (hoj : (ojibwe.map Translation.ojibwe_text).Nodup) :
    ((scoreWord sim threshold word wdef ojibwe).map matchKey).Nodup := by
  unfold scoreWord
  rw [List.map_map]
  have h1 : (((ojibwe.filter
      (fun t => decide (threshold ≤ sim wdef t.ojibwe_definition))).map
        Translation.ojibwe_text)).Nodup :=
    ((List.filter_sublist _).map _).nodup hoj
  have hinj : Function.Injective
      (fun x : String => ((word, x) : String × String)) := by
    intro x y hxy
    simpa using congrArg Prod.snd hxy
  have h2 := h1.map hinj
  rw [List.map_map] at h2
  exact h2

theorem flatMap_scoreWord_keys_nodup (sim : String → String → ℚ)
    (threshold : ℚ) (ojibwe : List Translation) (ws : List (String × String))
    (hws : (ws.map Prod.fst).Nodup)
    (hoj : (ojibwe.map Translation.ojibwe_text).Nodup) :
    ((ws.flatMap (fun p => scoreWord sim threshold p.1 p.2 ojibwe)).map
      matchKey).Nodup := by
  rw [List.map_flatMap, List.nodup_flatMap]
  constructor
  · intro p _
    exact scoreWord_keys_nodup sim threshold p.1 p.2 ojibwe hoj
  · have hpw : List.Pairwise (fun a b : String × String => a.1 ≠ b.1) ws :=
      List.pairwise_map.mp hws
    refine hpw.imp ?_
    intro a b hab
    intro k hka hkb
    apply hab
    rw [← scoreWord_key_fst sim threshold a.1 a.2 ojibwe k hka,
      ← scoreWord_key_fst sim threshold b.1 b.2 ojibwe k hkb]

theorem run_matches_keys_nodup (sim : String → String → ℚ) (threshold : ℚ)
    (batch_size : ℕ) (min_frequency : ℚ)
    (english_dict : List (String × String)) (trans : List Translation)
    (freqs : List (String × ℚ)) (processed0 : Finset String)
    (cancel : ℕ → Bool) (hdict : (english_dict.map Prod.fst).Nodup)
    (htrans : (trans.map Translation.ojibwe_text).Nodup)
    (hbs : 0 < batch_size) :
    (((print_semantic_matches sim threshold batch_size min_frequency
      english_dict trans freqs processed0 cancel).1.all_matches).map
        matchKey).Nodup := by
  unfold print_semantic_matches
  obtain ⟨k, _, _, hmat, _⟩ := runBatches_take_spec sim threshold trans cancel
    (chunked batch_size (batchEntries english_dict
      (remainingWords freqs min_frequency processed0
        (untranslatedWords (english_dict.map Prod.fst) trans)))) 0
    ⟨processed0, []⟩
  dsimp only at hmat
  rw [hmat, List.nil_append]
  unfold processBatch
  rw [flatMap_chunked_flatten]
  apply flatMap_scoreWord_keys_nodup sim threshold trans _ _ htrans
  have huntr : (untranslatedWords (english_dict.map Prod.fst) trans).Nodup := by
    unfold untranslatedWords
    exact (List.filter_sublist _).nodup hdict
  have hfull : ((chunked batch_size (batchEntries english_dict
      (remainingWords freqs min_frequency processed0
        (untranslatedWords (english_dict.map Prod.fst)
          trans)))).flatten.map Prod.fst).Nodup := by
    rw [chunked_flatten _ hbs, batchEntries_map_fst]
    exact remainingWords_words_nodup freqs min_frequency processed0 _ huntr
  have hsplit : ((chunked batch_size (batchEntries english_dict
        (remainingWords freqs min_frequency processed0
          (untranslatedWords (english_dict.map Prod.fst)
            trans)))).take k).flatten.map Prod.fst ++
      ((chunked batch_size (batchEntries english_dict
        (remainingWords freqs min_frequency processed0
          (untranslatedWords (english_dict.map Prod.fst)
            trans)))).drop k).flatten.map Prod.fst =
      (chunked batch_size (batchEntries english_dict
        (remainingWords freqs min_frequency processed0
          (untranslatedWords (english_dict.map Prod.fst)
            trans)))).flatten.map Prod.fst := by
    rw [← List.map_append, flatten_take_append]
  rw [← hsplit] at hfull
  exact (List.nodup_append.mp hfull).1

/-- C4: no (source word, target word) pair is ever stored twice: the matches
accumulated by a run have pairwise-distinct keys (given distinct dictionary
words and distinct Ojibwe targets); the Match Store's keyed upsert keeps the
stored keys duplicate-free under any append; and re-appending the same batch
after an interrupted retry adds no key, leaving the stored pair list
unchanged. -/
theorem no_duplicate_match_pairs (sim : String → String → ℚ) (threshold : ℚ)
    (batch_size : ℕ) (min_frequency : ℚ)
    (english_dict : List (String × String)) (trans : List Translation)
    (freqs : List (String × ℚ)) (processed0 : Finset String)
    (cancel : ℕ → Bool) (hdict : (english_dict.map Prod.fst).Nodup)
    (htrans : (trans.map Translation.ojibwe_text).Nodup)
    (hbs : 0 < batch_size) :
    (((print_semantic_matches sim threshold batch_size min_frequency
      english_dict trans freqs processed0 cancel).1.all_matches).map
        matchKey).Nodup ∧
    (∀ s ms : List MatchCandidate, (s.map matchKey).Nodup →
      ((storeAppendAll s ms).map matchKey).Nodup) ∧
    (∀ s ms : List MatchCandidate,
      (storeAppendAll (storeAppendAll s ms) ms).map matchKey =
        (storeAppendAll s ms).map matchKey) := by
  refine ⟨run_matches_keys_nodup sim threshold batch_size min_frequency
    english_dict trans freqs processed0 cancel hdict htrans hbs, ?_, ?_⟩
  · intro s ms hs
    exact storeAppendAll_keys_nodup ms s hs
  · intro s ms
    exact storeAppendAll_keys_of_all_mem ms (storeAppendAll s ms)
      (fun m hm => mem_key_storeAppendAll ms s m hm)

/-- Witness for C4 at a concrete input: one word, one target, batch size
one. -/
theorem no_duplicate_match_pairs_witness :
    (((print_semantic_matches (fun _ _ => (9 : ℚ) / 10) (84 / 100) 1 100
      [("dog", "a domesticated canine")]
      [⟨"cat", "gaazhagens", "a small cat"⟩] [("dog", 500)] ∅
      (fun _ => false)).1.all_matches).map matchKey).Nodup ∧
    (∀ s ms : List MatchCandidate, (s.map matchKey).Nodup →
      ((storeAppendAll s ms).map matchKey).Nodup) ∧
    (∀ s ms : List MatchCandidate,
      (storeAppendAll (storeAppendAll s ms) ms).map matchKey =
        (storeAppendAll s ms).map matchKey) :=
  no_duplicate_match_pairs (fun _ _ => (9 : ℚ) / 10) (84 / 100) 1 100
    [("dog", "a domesticated canine")] [⟨"cat", "gaazhagens", "a small cat"⟩]
    [("dog", 500)] ∅ (fun _ => false) (by decide) (by decide) (by decide)

end VOTA

